import Mathlib

/-!
Formal model of the bracket-balance scanner scripts of this repository
(count_parens.py, count_curlies.py, count_balance.py, find_unmatched.py).
A document is the list of lines of the scanned file; each script iterates
a half-open line range [start, end), scanning characters with signed
counters.  Out-of-range line indexing is the scripts' only failure once
the file is read (Python IndexError, the spec's RangeError).
-/

/-- A document: the ordered list of text lines, each a list of characters. -/
abbrev Document := List (List Char)

/-- Failure of the scan itself: `lines[idx]` with an out-of-range index. -/
inductive RangeError where
  | indexOutOfRange
deriving DecidableEq

/-- Result of a forward counting scan: the final net counter and the minimum
value the counter reached (`count` and `min_count` in count_parens.py). -/
structure ScanResult where
  net : Int
  minimum : Int
deriving DecidableEq

/-- One line of the forward scan of count_parens.py / count_curlies.py: the
counter is incremented on the open character, decremented on the close
character, and the minimum tracker is updated after every character.
The state is the pair (count, min_count). -/
def scanLineFwd (o c : Char) : List Char → Int × Int → Int × Int
  | [], st => st
  | ch :: rest, st =>
    let count := if ch = o then st.1 + 1 else if ch = c then st.1 - 1 else st.1
    scanLineFwd o c rest (count, min st.2 count)

/-- The outer loop `for idx in range(start, end)` of the forward scan, over
an explicit list of line indices. -/
def countGo (lines : Document) (o c : Char) :
    List Nat → Int × Int → Except RangeError (Int × Int)
  | [], st => .ok st
  | idx :: rest, st =>
    match lines[idx]? with
    | none => .error .indexOutOfRange
    | some line => countGo lines o c rest (scanLineFwd o c line st)

/-- count_pair(document, (start, end), open_char, close_char): the scan of
count_parens.py / count_curlies.py with the delimiter pair generalized. -/
def count_pair (lines : Document) (s e : Nat) (o c : Char) :
    Except RangeError ScanResult :=
  (countGo lines o c (List.range' s (e - s)) (0, 0)).map fun st => ⟨st.1, st.2⟩

/-- Outcome of find_unmatched.py: early exit after reporting a (0-based)
line index, normal completion with no report, or the indexing failure. -/
inductive FindOutcome where
  | found (idx : Nat)
  | notFound
  | rangeError
deriving DecidableEq

/-- Inner loop `for ch in reversed(lines[idx])` of find_unmatched.py:
decrement on the open character and stop (`.error idx`) the moment the
counter reaches 0, increment on the close character. -/
def scanLineRev (o c : Char) (idx : Nat) : List Char → Int → Except Nat Int
  | [], count => .ok count
  | ch :: rest, count =>
    if ch = o then
      if count - 1 = 0 then .error idx else scanLineRev o c idx rest (count - 1)
    else if ch = c then scanLineRev o c idx rest (count + 1)
    else scanLineRev o c idx rest count

/-- Outer loop `for idx in range(end-1, start-1, -1)` of find_unmatched.py,
over an explicit (already reversed) list of line indices. -/
def findGo (lines : Document) (o c : Char) : List Nat → Int → FindOutcome
  | [], _ => .notFound
  | idx :: rest, count =>
    match lines[idx]? with
    | none => .rangeError
    | some line =>
      match scanLineRev o c idx line.reverse count with
      | .error i => .found i
      | .ok count' => findGo lines o c rest count'

/-- find_unmatched_open(document, (start, end), open_char, close_char): the
reverse scan of find_unmatched.py with the counter starting at 1. -/
def find_unmatched_open (lines : Document) (s e : Nat) (o c : Char) : FindOutcome :=
  findGo lines o c (List.range' s (e - s)).reverse 1

/-- One line of the net-only scan of count_balance.py (no minimum tracker). -/
def netLineFwd (o c : Char) : List Char → Int → Int
  | [], n => n
  | ch :: rest, n =>
    netLineFwd o c rest (if ch = o then n + 1 else if ch = c then n - 1 else n)

/-- Outer loop of one pass of count_balance.py. -/
def netGo (lines : Document) (o c : Char) : List Nat → Int → Except RangeError Int
  | [], n => .ok n
  | idx :: rest, n =>
    match lines[idx]? with
    | none => .error .indexOutOfRange
    | some line => netGo lines o c rest (netLineFwd o c line n)

/-- count_balance.py: two sequential independent passes over the same range,
first the parenthesis net, then the curly-brace net. -/
def count_balance (lines : Document) (s e : Nat) : Except RangeError (Int × Int) :=
  match netGo lines '(' ')' (List.range' s (e - s)) 0 with
  | .error err => .error err
  | .ok parens =>
    match netGo lines '{' '}' (List.range' s (e - s)) 0 with
    | .error err => .error err
    | .ok curlies => .ok (parens, curlies)

/-- Modelled from the spec (count_multiple_pairs, single-pass variant): the
update of one pair's (count, min_count) state on one character. -/
def multiStep (ch : Char) (pst : (Char × Char) × (Int × Int)) :
    (Char × Char) × (Int × Int) :=
  let count :=
    if ch = pst.1.1 then pst.2.1 + 1 else if ch = pst.1.2 then pst.2.1 - 1 else pst.2.1
  (pst.1, (count, min pst.2.2 count))

/-- Modelled from the spec: one line of the single forward pass of
count_multiple_pairs, updating every pair's counters on each character. -/
def scanLineMulti : List Char → List ((Char × Char) × (Int × Int)) →
    List ((Char × Char) × (Int × Int))
  | [], sts => sts
  | ch :: rest, sts => scanLineMulti rest (sts.map (multiStep ch))

/-- Modelled from the spec: outer loop of count_multiple_pairs over the line
range, failing like the single-pair scans on an out-of-range index. -/
def multiGo (lines : Document) :
    List Nat → List ((Char × Char) × (Int × Int)) →
      Except RangeError (List ((Char × Char) × (Int × Int)))
  | [], sts => .ok sts
  | idx :: rest, sts =>
    match lines[idx]? with
    | none => .error .indexOutOfRange
    | some line => multiGo lines rest (scanLineMulti line sts)

/-- Modelled from the spec: count_multiple_pairs(document, range, pairs),
one ScanResult per requested pair, computed in a single forward pass with
independent counters per pair. -/
def count_multiple_pairs (lines : Document) (s e : Nat)
    (pairs : List (Char × Char)) : Except RangeError (List ScanResult) :=
  (multiGo lines (List.range' s (e - s)) (pairs.map fun p => (p, (0, 0)))).map
    fun sts => sts.map fun pst => ⟨pst.2.1, pst.2.2⟩

/-- Spec-side reference for find_unmatched_open: the flattened reverse
character sequence — lines from end−1 down to start, characters within each
line in reverse — each character tagged with its line index. -/
def revCharSeq (lines : Document) (s e : Nat) : List (Nat × Char) :=
  (List.range' s (e - s)).reverse.flatMap fun idx =>
    (lines.getD idx []).reverse.map fun ch => (idx, ch)

/-- Spec-side reference: walk the tagged character sequence with a counter
starting from the given value, decrement on the open character and answer
the current line index the first time the counter reaches 0, increment on
the close character. -/
def findSpecGo (o c : Char) : List (Nat × Char) → Int → Option Nat
  | [], _ => none
  | (idx, ch) :: rest, count =>
    if ch = o then
      if count - 1 = 0 then some idx else findSpecGo o c rest (count - 1)
    else if ch = c then findSpecGo o c rest (count + 1)
    else findSpecGo o c rest count

/-- Spec-side reference for find_unmatched_open, assembled from the spec's
operational description with the counter initialized to 1. -/
def find_unmatched_open_spec (lines : Document) (s e : Nat) (o c : Char) :
    Option Nat :=
  findSpecGo o c (revCharSeq lines s e) 1

/-- Embed the reference's optional line index into FindOutcome. -/
def FindOutcome.ofOption : Option Nat → FindOutcome
  | some i => .found i
  | none => .notFound

/-- Per-character contribution to the net counter: +1 for the open character
(checked first, as in the scripts), −1 for the close character, 0 otherwise. -/
def charDelta (o c ch : Char) : Int :=
  if ch = o then 1 else if ch = c then -1 else 0

/-- Net delimiter balance of a single line. -/
def netLine (o c : Char) (line : List Char) : Int :=
  (line.map (charDelta o c)).sum

/-- Net delimiter balance over a list of line indices. -/
def netRange (lines : Document) (o c : Char) (idxs : List Nat) : Int :=
  (idxs.map fun i => netLine o c (lines.getD i [])).sum

/-- Number of occurrences of a character in the whole document. -/
def countOcc (x : Char) (lines : Document) : Nat :=
  (lines.flatMap id).count x

/-- First character in the range that is one of the two tracked delimiters
(the first non-ignored character of the scan). -/
def firstTracked (lines : Document) (s e : Nat) (o c : Char) : Option Char :=
  ((List.range' s (e - s)).flatMap fun idx => lines.getD idx []).find?
    fun ch => ch == o || ch == c

/-- The forward scan restricted to valid indices, as a pure fold. -/
def countPure (lines : Document) (o c : Char) (idxs : List Nat)
    (st : Int × Int) : Int × Int :=
  idxs.foldl (fun st idx => scanLineFwd o c (lines.getD idx []) st) st

/-! ## Basic lemmas about the forward scan -/

theorem netLine_nil (o c : Char) : netLine o c [] = 0 := rfl

theorem netLine_cons (o c ch : Char) (rest : List Char) :
    netLine o c (ch :: rest) = charDelta o c ch + netLine o c rest := by
  simp [netLine]

theorem scanLineFwd_fst (o c : Char) :
    ∀ (line : List Char) (n m : Int),
      (scanLineFwd o c line (n, m)).1 = n + netLine o c line := by
  intro line
  induction line with
  | nil => intro n m; simp [scanLineFwd, netLine]
  | cons ch rest ih =>
    intro n m
    rw [netLine_cons]
    simp only [scanLineFwd]
    rw [ih]
    unfold charDelta
    split_ifs <;> omega

theorem scanLineFwd_snd_le (o c : Char) :
    ∀ (line : List Char) (n m : Int), (scanLineFwd o c line (n, m)).2 ≤ m := by
  intro line
  induction line with
  | nil => intro n m; simp [scanLineFwd]
  | cons ch rest ih =>
    intro n m
    simp only [scanLineFwd]
    exact le_trans (ih _ _) (min_le_left _ _)

theorem scanLineFwd_snd_le_fst (o c : Char) :
    ∀ (line : List Char) (n m : Int), m ≤ n →
      (scanLineFwd o c line (n, m)).2 ≤ (scanLineFwd o c line (n, m)).1 := by
  intro line
  induction line with
  | nil => intro n m h; simpa [scanLineFwd] using h
  | cons ch rest ih =>
    intro n m _
    simp only [scanLineFwd]
    exact ih _ _ (min_le_right _ _)

theorem getD_of_lt (lines : Document) (idx : Nat) (h : idx < lines.length) :
    lines.getD idx [] = lines[idx] := by
  simp [List.getD_eq_getElem?_getD, List.getElem?_eq_getElem h]

theorem range'_valid (lines : Document) (s e : Nat) (he : e ≤ lines.length) :
    ∀ i ∈ List.range' s (e - s), i < lines.length := by
  intro i hi
  rw [List.mem_range'_1] at hi
  omega

theorem netRange_nil (lines : Document) (o c : Char) :
    netRange lines o c [] = 0 := rfl

theorem netRange_cons (lines : Document) (o c : Char) (idx : Nat) (rest : List Nat) :
    netRange lines o c (idx :: rest) =
      netLine o c (lines.getD idx []) + netRange lines o c rest := by
  simp [netRange]

theorem netRange_append (lines : Document) (o c : Char) (l₁ l₂ : List Nat) :
    netRange lines o c (l₁ ++ l₂) =
      netRange lines o c l₁ + netRange lines o c l₂ := by
  simp [netRange]

theorem countGo_spec (lines : Document) (o c : Char) :
    ∀ (idxs : List Nat) (n m : Int), (∀ i ∈ idxs, i < lines.length) →
      ∃ p q, countGo lines o c idxs (n, m) = .ok (p, q) ∧
        p = n + netRange lines o c idxs ∧ q ≤ m ∧ (m ≤ n → q ≤ p) := by
  intro idxs
  induction idxs with
  | nil =>
    intro n m _
    exact ⟨n, m, rfl, by simp [netRange_nil], le_refl m, fun h => h⟩
  | cons idx rest ih =>
    intro n m hvalid
    have hidx : idx < lines.length := hvalid idx (List.mem_cons_self _ _)
    have hrest : ∀ i ∈ rest, i < lines.length :=
      fun i hi => hvalid i (List.mem_cons_of_mem _ hi)
    obtain ⟨p, q, heq, hp, hq, himp⟩ :=
      ih (scanLineFwd o c lines[idx] (n, m)).1 (scanLineFwd o c lines[idx] (n, m)).2 hrest
    refine ⟨p, q, ?_, ?_, ?_, ?_⟩
    · simp only [countGo, List.getElem?_eq_getElem hidx]
      rw [← heq]
    · rw [hp, scanLineFwd_fst, netRange_cons, getD_of_lt lines idx hidx]
      ring
    · exact le_trans hq (scanLineFwd_snd_le o c _ n m)
    · intro hmn
      exact himp (scanLineFwd_snd_le_fst o c _ n m hmn)

theorem countGo_eq_pure (lines : Document) (o c : Char) :
    ∀ (idxs : List Nat) (st : Int × Int), (∀ i ∈ idxs, i < lines.length) →
      countGo lines o c idxs st = .ok (countPure lines o c idxs st) := by
  intro idxs
  induction idxs with
  | nil => intro st _; rfl
  | cons idx rest ih =>
    intro st hvalid
    have hidx : idx < lines.length := hvalid idx (List.mem_cons_self _ _)
    have hrest : ∀ i ∈ rest, i < lines.length :=
      fun i hi => hvalid i (List.mem_cons_of_mem _ hi)
    simp only [countGo, List.getElem?_eq_getElem hidx, countPure, List.foldl_cons]
    rw [← getD_of_lt lines idx hidx]
    exact ih _ hrest

theorem countGo_error (lines : Document) (o c : Char) :
    ∀ (idxs : List Nat) (st : Int × Int), (∃ i ∈ idxs, lines.length ≤ i) →
      countGo lines o c idxs st = .error .indexOutOfRange := by
  intro idxs
  induction idxs with
  | nil => intro st h; simp at h
  | cons idx rest ih =>
    intro st ⟨i, hi, hlen⟩
    by_cases hidx : idx < lines.length
    · have hirest : i ∈ rest := by
        rcases List.mem_cons.mp hi with h | h
        · omega
        · exact h
      simp only [countGo, List.getElem?_eq_getElem hidx]
      exact ih _ ⟨i, hirest, hlen⟩
    · simp only [countGo, List.getElem?_eq_none (by omega : lines.length ≤ idx)]

theorem count_pair_ok (lines : Document) (s e : Nat) (o c : Char)
    (he : e ≤ lines.length) :
    ∃ r : ScanResult, count_pair lines s e o c = .ok r ∧
      r.net = netRange lines o c (List.range' s (e - s)) ∧
      r.minimum ≤ 0 ∧ r.minimum ≤ r.net := by
  obtain ⟨p, q, heq, hp, hq, himp⟩ :=
    countGo_spec lines o c (List.range' s (e - s)) 0 0 (range'_valid lines s e he)
  refine ⟨⟨p, q⟩, ?_, by simpa using hp, hq, himp (le_refl 0)⟩
  unfold count_pair
  rw [heq]
  rfl

/-! ## Net-only pass of count_balance.py -/

theorem netLineFwd_eq (o c : Char) :
    ∀ (line : List Char) (n : Int),
      netLineFwd o c line n = n + netLine o c line := by
  intro line
  induction line with
  | nil => intro n; simp [netLineFwd, netLine]
  | cons ch rest ih =>
    intro n
    rw [netLine_cons]
    simp only [netLineFwd]
    rw [ih]
    unfold charDelta
    split_ifs <;> omega

theorem netGo_ok (lines : Document) (o c : Char) :
    ∀ (idxs : List Nat) (n : Int), (∀ i ∈ idxs, i < lines.length) →
      netGo lines o c idxs n = .ok (n + netRange lines o c idxs) := by
  intro idxs
  induction idxs with
  | nil => intro n _; simp [netGo, netRange_nil]
  | cons idx rest ih =>
    intro n hvalid
    have hidx : idx < lines.length := hvalid idx (List.mem_cons_self _ _)
    simp only [netGo, List.getElem?_eq_getElem hidx]
    rw [ih _ (fun i hi => hvalid i (List.mem_cons_of_mem _ hi)),
      netLineFwd_eq, netRange_cons, getD_of_lt lines idx hidx]
    ring_nf

/-! ## The net over a full document -/

theorem map_getD_range' (lines : Document) :
    ∀ (n s : Nat), s + n ≤ lines.length →
      (List.range' s n).map (fun i => lines.getD i []) = (lines.drop s).take n := by
  intro n
  induction n with
  | zero => intro s _; simp
  | succ k ih =>
    intro s hs
    have hslt : s < lines.length := by omega
    rw [List.range'_succ, List.map_cons, ih (s + 1) (by omega),
      List.drop_eq_getElem_cons hslt, List.take_succ_cons, getD_of_lt lines s hslt]

theorem netRange_full (lines : Document) (o c : Char) :
    netRange lines o c (List.range' 0 lines.length) =
      ((lines.map (netLine o c)).sum : Int) := by
  unfold netRange
  rw [show (fun i => netLine o c (lines.getD i [])) =
      (netLine o c) ∘ (fun i => lines.getD i []) from rfl]
  rw [← List.map_map, map_getD_range' lines lines.length 0 (by omega)]
  simp

theorem netLine_count (o c : Char) (hoc : o ≠ c) :
    ∀ line : List Char,
      netLine o c line = (line.count o : Int) - (line.count c : Int) := by
  intro line
  induction line with
  | nil => simp [netLine]
  | cons ch rest ih =>
    rw [netLine_cons, ih, List.count_cons, List.count_cons]
    unfold charDelta
    have hco : c ≠ o := fun h => hoc h.symm
    by_cases h1 : ch = o <;> by_cases h2 : ch = c
    · exact absurd (h1.symm.trans h2) hoc
    · simp [h1, h2, hoc, hco]
      ring
    · simp [h1, h2, hoc, hco]
      ring
    · simp [h1, h2]

theorem countOcc_cons (x : Char) (l : List Char) (ls : Document) :
    countOcc x (l :: ls) = l.count x + countOcc x ls := by
  simp [countOcc]

theorem sum_netLine_eq_countOcc (o c : Char) (hoc : o ≠ c) :
    ∀ lines : Document,
      ((lines.map (netLine o c)).sum : Int) =
        (countOcc o lines : Int) - (countOcc c lines : Int) := by
  intro lines
  induction lines with
  | nil => simp [countOcc]
  | cons l ls ih =>
    rw [List.map_cons, List.sum_cons, ih, countOcc_cons, countOcc_cons,
      netLine_count o c hoc]
    push_cast
    ring

/-! ## Lemmas about the reverse scan of find_unmatched.py -/

theorem scanLineRev_error_eq (o c : Char) (idx : Nat) :
    ∀ (chars : List Char) (count : Int) (i : Nat),
      scanLineRev o c idx chars count = .error i → i = idx := by
  intro chars
  induction chars with
  | nil => intro count i h; simp [scanLineRev] at h
  | cons ch rest ih =>
    intro count i h
    simp only [scanLineRev] at h
    split_ifs at h with h1 h2 h3
    · cases h
      rfl
    · exact ih _ _ h
    · exact ih _ _ h
    · exact ih _ _ h

theorem charDelta_of_open (o c ch : Char) (h : ch = o) : charDelta o c ch = 1 := by
  simp [charDelta, h]

theorem charDelta_of_close (o c ch : Char) (h1 : ¬ ch = o) (h2 : ch = c) :
    charDelta o c ch = -1 := by
  subst h2
  simp [charDelta, h1]

theorem charDelta_of_other (o c ch : Char) (h1 : ¬ ch = o) (h2 : ¬ ch = c) :
    charDelta o c ch = 0 := by
  simp [charDelta, h1, h2]

theorem scanLineRev_ok_net (o c : Char) (idx : Nat) :
    ∀ (chars : List Char) (count count' : Int),
      scanLineRev o c idx chars count = .ok count' →
      count' = count - (chars.map (charDelta o c)).sum := by
  intro chars
  induction chars with
  | nil =>
    intro count count' h
    simp only [scanLineRev] at h
    cases h
    simp
  | cons ch rest ih =>
    intro count count' h
    simp only [scanLineRev] at h
    rw [List.map_cons, List.sum_cons]
    split_ifs at h with h1 h2 h3
    · rw [charDelta_of_open o c ch h1]
      have := ih _ _ h
      omega
    · rw [charDelta_of_close o c ch h1 h3]
      have := ih _ _ h
      omega
    · rw [charDelta_of_other o c ch h1 h3]
      have := ih _ _ h
      omega

theorem scanLineRev_ok_pos (o c : Char) (idx : Nat) :
    ∀ (chars : List Char) (count count' : Int), 1 ≤ count →
      scanLineRev o c idx chars count = .ok count' → 1 ≤ count' := by
  intro chars
  induction chars with
  | nil =>
    intro count count' hpos h
    simp only [scanLineRev] at h
    cases h
    exact hpos
  | cons ch rest ih =>
    intro count count' hpos h
    simp only [scanLineRev] at h
    split_ifs at h with h1 h2 h3
    · exact ih _ _ (by omega) h
    · exact ih _ _ (by omega) h
    · exact ih _ _ hpos h

theorem sum_charDelta_reverse (o c : Char) (line : List Char) :
    ((line.reverse.map (charDelta o c)).sum) = netLine o c line := by
  rw [List.map_reverse, List.sum_reverse]
  rfl

theorem findGo_head_error (lines : Document) (o c : Char) (idx : Nat)
    (rest : List Nat) (count : Int) (h : lines.length ≤ idx) :
    findGo lines o c (idx :: rest) count = .rangeError := by
  simp only [findGo, List.getElem?_eq_none h]

theorem findGo_found_net (lines : Document) (o c : Char) (s : Nat) :
    ∀ (k : Nat) (count : Int) (L : Nat), 1 ≤ count → s + k ≤ lines.length →
      findGo lines o c (List.range' s k).reverse count = .found L →
      s ≤ L ∧ L < s + k ∧
        1 ≤ count - netRange lines o c (List.range' (L + 1) (s + k - (L + 1))) := by
  intro k
  induction k with
  | zero =>
    intro count L _ _ h
    simp [findGo] at h
  | succ k ih =>
    intro count L hpos hlen h
    rw [List.range'_1_concat, List.reverse_append, List.reverse_singleton,
      List.singleton_append] at h
    have hsk : s + k < lines.length := by omega
    simp only [findGo, List.getElem?_eq_getElem hsk] at h
    split at h
    next x i heq =>
      have hi : i = s + k := scanLineRev_error_eq o c (s + k) _ _ _ heq
      cases h
      refine ⟨by omega, by omega, ?_⟩
      have h0 : s + (k + 1) - (L + 1) = 0 := by omega
      rw [h0, List.range'_zero, netRange_nil]
      omega
    next x count' heq =>
      have hpos' : 1 ≤ count' := scanLineRev_ok_pos o c (s + k) _ _ _ hpos heq
      obtain ⟨hsL, hLk, hnet⟩ := ih count' L hpos' (by omega) h
      have hcount' : count' = count - netLine o c lines[s + k] := by
        have hn := scanLineRev_ok_net o c (s + k) _ _ _ heq
        rwa [sum_charDelta_reverse] at hn
      refine ⟨hsL, by omega, ?_⟩
      have hsplit : s + (k + 1) - (L + 1) = (s + k - (L + 1)) + 1 := by omega
      rw [hsplit, List.range'_1_concat, netRange_append]
      have hlast : L + 1 + (s + k - (L + 1)) = s + k := by omega
      rw [hlast, netRange_cons, netRange_nil, getD_of_lt lines (s + k) hsk]
      omega

theorem findSpecGo_line (o c : Char) (idx : Nat) :
    ∀ (chars : List Char) (rest : List (Nat × Char)) (count : Int),
      findSpecGo o c (chars.map (fun ch => (idx, ch)) ++ rest) count =
        match scanLineRev o c idx chars count with
        | .error i => some i
        | .ok count' => findSpecGo o c rest count' := by
  intro chars
  induction chars with
  | nil => intro rest count; rfl
  | cons ch chs ih =>
    intro rest count
    simp only [List.map_cons, List.cons_append, findSpecGo, scanLineRev]
    split_ifs with h1 h2 h3
    · rfl
    · exact ih rest (count - 1)
    · exact ih rest (count + 1)
    · exact ih rest count

theorem findGo_eq_spec (lines : Document) (o c : Char) :
    ∀ (idxs : List Nat) (count : Int), (∀ i ∈ idxs, i < lines.length) →
      findGo lines o c idxs count =
        .ofOption (findSpecGo o c
          (idxs.flatMap fun idx => (lines.getD idx []).reverse.map fun ch => (idx, ch))
          count) := by
  intro idxs
  induction idxs with
  | nil => intro count _; rfl
  | cons idx rest ih =>
    intro count hvalid
    have hidx : idx < lines.length := hvalid idx (List.mem_cons_self _ _)
    have hrest : ∀ i ∈ rest, i < lines.length :=
      fun i hi => hvalid i (List.mem_cons_of_mem _ hi)
    rw [List.flatMap_cons, findSpecGo_line o c idx]
    simp only [findGo, List.getElem?_eq_getElem hidx, getD_of_lt lines idx hidx]
    cases heq : scanLineRev o c idx (lines[idx]).reverse count with
    | error i => rfl
    | ok count' => exact ih count' hrest

/-! ## Lemmas about the single-pass multi-pair scan -/

theorem scanLineMulti_eq :
    ∀ (line : List Char) (sts : List ((Char × Char) × (Int × Int))),
      scanLineMulti line sts =
        sts.map fun pst => (pst.1, scanLineFwd pst.1.1 pst.1.2 line pst.2) := by
  intro line
  induction line with
  | nil =>
    intro sts
    simp [scanLineMulti, scanLineFwd]
  | cons ch rest ih =>
    intro sts
    simp only [scanLineMulti]
    rw [ih, List.map_map]
    apply List.map_congr_left
    intro pst _
    simp [Function.comp, multiStep, scanLineFwd]

theorem multiGo_ok (lines : Document) :
    ∀ (idxs : List Nat) (sts : List ((Char × Char) × (Int × Int))),
      (∀ i ∈ idxs, i < lines.length) →
      multiGo lines idxs sts =
        .ok (sts.map fun pst => (pst.1, countPure lines pst.1.1 pst.1.2 idxs pst.2)) := by
  intro idxs
  induction idxs with
  | nil =>
    intro sts _
    simp [multiGo, countPure]
  | cons idx rest ih =>
    intro sts hvalid
    have hidx : idx < lines.length := hvalid idx (List.mem_cons_self _ _)
    simp only [multiGo, List.getElem?_eq_getElem hidx]
    rw [scanLineMulti_eq, ih _ (fun i hi => hvalid i (List.mem_cons_of_mem _ hi)),
      List.map_map]
    congr 1
    apply List.map_congr_left
    intro pst _
    simp [Function.comp, countPure, List.foldl_cons, List.getElem?_eq_getElem hidx]

theorem mapM_ok_of_forall {α β : Type} (f : α → Except RangeError β) (g : α → β) :
    ∀ l : List α, (∀ a ∈ l, f a = .ok (g a)) → l.mapM f = .ok (l.map g) := by
  intro l
  induction l with
  | nil => intro _; rfl
  | cons a as ih =>
    intro h
    rw [List.mapM_cons, h a (List.mem_cons_self _ _),
      ih (fun b hb => h b (List.mem_cons_of_mem _ hb))]
    rfl

theorem count_pair_eq_pure (lines : Document) (s e : Nat) (o c : Char)
    (he : e ≤ lines.length) :
    count_pair lines s e o c =
      .ok ⟨(countPure lines o c (List.range' s (e - s)) (0, 0)).1,
        (countPure lines o c (List.range' s (e - s)) (0, 0)).2⟩ := by
  unfold count_pair
  rw [countGo_eq_pure lines o c _ _ (range'_valid lines s e he)]
  rfl

/-! ## The claims -/

/-- Claim C5: for every document and delimiter pair, an empty range
(start = end) makes count_pair return net 0 and minimum 0 and makes
find_unmatched_open report nothing. -/
theorem C5_empty_range (lines : Document) (s : Nat) (o c : Char) :
    count_pair lines s s o c = .ok ⟨0, 0⟩ ∧
      find_unmatched_open lines s s o c = .notFound := by
  constructor
  · unfold count_pair
    rw [Nat.sub_self, List.range'_zero]
    rfl
  · unfold find_unmatched_open
    rw [Nat.sub_self, List.range'_zero]
    rfl

/-- Claim C8: for the document ["a(", "b)", "c("] with pair ('(',')') and
range (0,3), count_pair returns net 1 and minimum 0, and
find_unmatched_open reports 0-based line index 2, printed 1-based as 3. -/
theorem C8_example_scenario :
    count_pair [['a', '('], ['b', ')'], ['c', '(']] 0 3 '(' ')' = .ok ⟨1, 0⟩ ∧
      find_unmatched_open [['a', '('], ['b', ')'], ['c', '(']] 0 3 '(' ')' =
        .found 2 ∧ 2 + 1 = 3 :=
  ⟨rfl, rfl, rfl⟩

/-- Claim C9: for every document, valid range and delimiter pair, the
minimum reported by count_pair is ≤ 0, because the tracker starts at 0
before any character is processed. -/
theorem C9_minimum_nonpos (lines : Document) (s e : Nat) (o c : Char)
    (he : e ≤ lines.length) :
    ∃ r, count_pair lines s e o c = .ok r ∧ r.minimum ≤ 0 := by
  obtain ⟨r, hr, _, hmin, _⟩ := count_pair_ok lines s e o c he
  exact ⟨r, hr, hmin⟩

/-- Witness for C9 at a document whose only tracked characters are opens. -/
theorem C9_witness :
    (1 ≤ List.length [['(', '(']]) ∧
      ∃ r, count_pair [['(', '(']] 0 1 '(' ')' = .ok r ∧ r.minimum ≤ 0 :=
  ⟨by decide, C9_minimum_nonpos [['(', '(']] 0 1 '(' ')' (by decide)⟩

/-- Claim C6: for every document, valid range and delimiter pair,
minimum ≤ net, and minimum ≤ 0 whenever the first non-ignored character of
the range is the close delimiter (the code in fact guarantees minimum ≤ 0
unconditionally, which subsumes that condition). -/
theorem C6_minimum_le (lines : Document) (s e : Nat) (o c : Char)
    (he : e ≤ lines.length) :
    ∃ r, count_pair lines s e o c = .ok r ∧ r.minimum ≤ r.net ∧
      (firstTracked lines s e o c = some c → r.minimum ≤ 0) := by
  obtain ⟨r, hr, _, hmin, hminnet⟩ := count_pair_ok lines s e o c he
  exact ⟨r, hr, hminnet, fun _ => hmin⟩

/-- Witness for C6 at a range whose first tracked character is the close
delimiter. -/
theorem C6_witness :
    (1 ≤ List.length [[')', '(']]) ∧
      ∃ r, count_pair [[')', '(']] 0 1 '(' ')' = .ok r ∧ r.minimum ≤ r.net ∧
        (firstTracked [[')', '(']] 0 1 '(' ')' = some ')' → r.minimum ≤ 0) :=
  ⟨by decide, C6_minimum_le [[')', '(']] 0 1 '(' ')' (by decide)⟩

/-- Claim C10: for s ≤ m ≤ e ≤ length, the net of count_pair over (s, e)
equals the net over (s, m) plus the net over (m, e). -/
theorem C10_net_additive (lines : Document) (s m e : Nat) (o c : Char)
    (h1 : s ≤ m) (h2 : m ≤ e) (h3 : e ≤ lines.length) :
    ∃ r r₁ r₂, count_pair lines s e o c = .ok r ∧
      count_pair lines s m o c = .ok r₁ ∧ count_pair lines m e o c = .ok r₂ ∧
      r.net = r₁.net + r₂.net := by
  obtain ⟨r, hr, hrnet, _, _⟩ := count_pair_ok lines s e o c h3
  obtain ⟨r₁, hr₁, hr₁net, _, _⟩ := count_pair_ok lines s m o c (by omega)
  obtain ⟨r₂, hr₂, hr₂net, _, _⟩ := count_pair_ok lines m e o c h3
  refine ⟨r, r₁, r₂, hr, hr₁, hr₂, ?_⟩
  rw [hrnet, hr₁net, hr₂net, ← netRange_append]
  congr 1
  have hm : s + (m - s) = m := by omega
  have hsum : e - m + (m - s) = e - s := by omega
  have happ := List.range'_append_1 s (m - s) (e - m)
  rw [hm, hsum] at happ
  exact happ.symm

/-- Witness for C10 on a two-line document split in the middle. -/
theorem C10_witness :
    ((0 ≤ 1 ∧ 1 ≤ 2) ∧ 2 ≤ List.length [['('], [')']]) ∧
      ∃ r r₁ r₂, count_pair [['('], [')']] 0 2 '(' ')' = .ok r ∧
        count_pair [['('], [')']] 0 1 '(' ')' = .ok r₁ ∧
        count_pair [['('], [')']] 1 2 '(' ')' = .ok r₂ ∧
        r.net = r₁.net + r₂.net :=
  ⟨⟨⟨by decide, by decide⟩, by decide⟩,
    C10_net_additive [['('], [')']] 0 1 2 '(' ')' (by decide) (by decide) (by decide)⟩

/-- Claim C1 (amended): for a delimiter pair with distinct open and close
characters, count_pair over the full range (0, length) returns a net equal
to the number of occurrences of the open character minus the number of
occurrences of the close character.  The distinctness hypothesis is needed:
when o = c the scan's open branch shadows the close branch (see the
counterexample). -/
theorem C1_full_range_net (lines : Document) (o c : Char) (hoc : o ≠ c) :
    ∃ r, count_pair lines 0 lines.length o c = .ok r ∧
      r.net = (countOcc o lines : Int) - (countOcc c lines : Int) := by
  obtain ⟨r, hr, hrnet, _, _⟩ := count_pair_ok lines 0 lines.length o c (le_refl _)
  refine ⟨r, hr, ?_⟩
  rw [hrnet, Nat.sub_zero, netRange_full, sum_netLine_eq_countOcc o c hoc]

/-- Witness for C1 on the document ["())"] with the pair ('(', ')'). -/
theorem C1_witness :
    ('(' ≠ ')') ∧
      ∃ r, count_pair [['(', ')', ')']] 0 (List.length [['(', ')', ')']]) '(' ')' =
          .ok r ∧
        r.net = (countOcc '(' [['(', ')', ')']] : Int) -
          (countOcc ')' [['(', ')', ')']] : Int) :=
  ⟨by decide, C1_full_range_net [['(', ')', ')']] '(' ')' (by decide)⟩

/-- Claim C1 counterexample: with open = close = '(' on the document ["("],
count_pair over the full range returns net 1, while (count of o) −
(count of c) is 0. -/
theorem C1_counterexample :
    count_pair [['(']] 0 (List.length [['(']]) '(' '(' = .ok ⟨1, 0⟩ ∧
      (countOcc '(' [['(']] : Int) - (countOcc '(' [['(']] : Int) = 0 ∧
      (1 : Int) ≠ 0 :=
  ⟨rfl, by decide, by decide⟩

/-- Claim C4 (amended): the scans fail with RangeError exactly in the case
start < end and end > document length; with start ≥ end the loop over
range(start, end) is empty and the scans return normally even when start
or end is out of bounds (see the counterexample). -/
theorem C4_range_error (lines : Document) (s e : Nat) (o c : Char)
    (h1 : s < e) (h2 : lines.length < e) :
    count_pair lines s e o c = .error RangeError.indexOutOfRange ∧
      find_unmatched_open lines s e o c = .rangeError := by
  constructor
  · unfold count_pair
    have herr := countGo_error lines o c (List.range' s (e - s)) (0, 0)
      ⟨e - 1, by rw [List.mem_range'_1]; omega, by omega⟩
    rw [herr]
    rfl
  · unfold find_unmatched_open
    have hk : e - s = (e - s - 1) + 1 := by omega
    rw [hk, List.range'_1_concat, List.reverse_append, List.reverse_singleton,
      List.singleton_append]
    exact findGo_head_error lines o c _ _ 1 (by omega)

/-- Witness for C4 on the empty document with range (0, 1). -/
theorem C4_witness :
    ((0 : Nat) < 1 ∧ List.length ([] : Document) < 1) ∧
      count_pair [] 0 1 '(' ')' = .error RangeError.indexOutOfRange ∧
      find_unmatched_open [] 0 1 '(' ')' = .rangeError :=
  ⟨⟨by decide, by decide⟩, C4_range_error [] 0 1 '(' ')' (by decide) (by decide)⟩

/-- Claim C4 counterexample: with start = 2 > end = 1 on the one-line
document ["a"] (start is also outside the document bounds), both scans
return normally — the empty Python range produces no indexing at all —
instead of failing with RangeError. -/
theorem C4_counterexample :
    count_pair [['a']] 2 1 '(' ')' = .ok ⟨0, 0⟩ ∧
      find_unmatched_open [['a']] 2 1 '(' ')' = .notFound ∧
      count_pair [['a']] 2 1 '(' ')' ≠ .error RangeError.indexOutOfRange := by
  have hok : count_pair [['a']] 2 1 '(' ')' = .ok ⟨0, 0⟩ := rfl
  refine ⟨hok, rfl, ?_⟩
  rw [hok]
  intro h
  exact Except.noConfusion h

/-- Claim C2: on a valid range, find_unmatched_open behaves exactly as the
spec describes the algorithm: scan lines from end−1 down to start and
characters of each line in reverse, keep a counter starting at 1,
decrement it on the open character and report the current line index the
first time it reaches 0, increment it on the close character, and report
nothing when the scan completes. -/
theorem C2_find_matches_spec (lines : Document) (s e : Nat) (o c : Char)
    (he : e ≤ lines.length) :
    find_unmatched_open lines s e o c =
      .ofOption (find_unmatched_open_spec lines s e o c) := by
  unfold find_unmatched_open find_unmatched_open_spec revCharSeq
  exact findGo_eq_spec lines o c (List.range' s (e - s)).reverse 1
    (fun i hi => by
      rw [List.mem_reverse, List.mem_range'_1] at hi
      omega)

/-- Witness for C2 on the spec's example document. -/
theorem C2_witness :
    (3 ≤ List.length [['a', '('], ['b', ')'], ['c', '(']]) ∧
      find_unmatched_open [['a', '('], ['b', ')'], ['c', '(']] 0 3 '(' ')' =
        FindOutcome.ofOption
          (find_unmatched_open_spec [['a', '('], ['b', ')'], ['c', '(']] 0 3 '(' ')') :=
  ⟨by decide,
    C2_find_matches_spec [['a', '('], ['b', ')'], ['c', '(']] 0 3 '(' ')' (by decide)⟩

/-- Claim C3 counterexample: for the document ["((", ")"] with pair
('(',')') and range (0,2), the whole-range net is 1 and
find_unmatched_open reports line 0, yet the net of count_pair over
(0, 0+1) is 2, not exactly 1: the reported line holds a second, matched
open before the unmatched one. -/
theorem C3_counterexample :
    count_pair [['(', '('], [')']] 0 2 '(' ')' = .ok ⟨1, 0⟩ ∧
      find_unmatched_open [['(', '('], [')']] 0 2 '(' ')' = .found 0 ∧
      count_pair [['(', '('], [')']] 0 (0 + 1) '(' ')' = .ok ⟨2, 0⟩ ∧
      (2 : Int) ≠ 1 :=
  ⟨rfl, rfl, rfl, by decide⟩

/-- Claim C3 (amended): if the whole-range net of count_pair is exactly 1
and find_unmatched_open reports line L, then the net of count_pair over
(start, L+1) is at least 1.  It need not be exactly 1: the lines after L
can carry a negative net, as in the counterexample. -/
theorem C3_prefix_net (lines : Document) (s e : Nat) (o c : Char)
    (r : ScanResult) (L : Nat) (he : e ≤ lines.length)
    (hok : count_pair lines s e o c = .ok r) (hnet : r.net = 1)
    (hL : find_unmatched_open lines s e o c = .found L) :
    ∃ r', count_pair lines s (L + 1) o c = .ok r' ∧ 1 ≤ r'.net := by
  by_cases hse : s ≤ e
  case neg =>
    exfalso
    unfold find_unmatched_open at hL
    rw [show e - s = 0 by omega, List.range'_zero] at hL
    simp [findGo] at hL
  case pos =>
    have hk : s + (e - s) = e := by omega
    have hLfind : findGo lines o c (List.range' s (e - s)).reverse 1 =
        FindOutcome.found L := hL
    obtain ⟨hsL, hLe, hge⟩ :=
      findGo_found_net lines o c s (e - s) 1 L (by omega) (by omega) hLfind
    rw [hk] at hLe hge
    obtain ⟨r0, hr0, hr0net, _, _⟩ := count_pair_ok lines s e o c he
    have hrr0 : r = r0 := by
      have h := hok.symm.trans hr0
      injection h
    have hwhole : netRange lines o c (List.range' s (e - s)) = 1 := by
      rw [← hr0net, ← hrr0, hnet]
    obtain ⟨r', hr', hr'net, _, _⟩ := count_pair_ok lines s (L + 1) o c (by omega)
    refine ⟨r', hr', ?_⟩
    rw [hr'net]
    have hm : s + (L + 1 - s) = L + 1 := by omega
    have hsum : e - (L + 1) + (L + 1 - s) = e - s := by omega
    have happ := List.range'_append_1 s (L + 1 - s) (e - (L + 1))
    rw [hm, hsum] at happ
    have hsplit : netRange lines o c (List.range' s (e - s)) =
        netRange lines o c (List.range' s (L + 1 - s)) +
          netRange lines o c (List.range' (L + 1) (e - (L + 1))) := by
      rw [← happ, netRange_append]
    omega

/-- Witness for C3 on the spec's example document, where the reported line
is 2 and the prefix net is exactly 1. -/
theorem C3_witness :
    (count_pair [['a', '('], ['b', ')'], ['c', '(']] 0 3 '(' ')' = .ok ⟨1, 0⟩ ∧
      find_unmatched_open [['a', '('], ['b', ')'], ['c', '(']] 0 3 '(' ')' =
        .found 2) ∧
      ∃ r', count_pair [['a', '('], ['b', ')'], ['c', '(']] 0 (2 + 1) '(' ')' =
          .ok r' ∧ 1 ≤ r'.net :=
  ⟨⟨rfl, rfl⟩,
    C3_prefix_net [['a', '('], ['b', ')'], ['c', '(']] 0 3 '(' ')' ⟨1, 0⟩ 2
      (by decide) rfl rfl rfl⟩

/-- Claim C7: on a valid range, the single-pass count_multiple_pairs
returns for each pair exactly the ScanResult of an individual count_pair
run on the same document and range (the per-pair counters are
independent), and count_balance.py's two separate passes agree with
count_pair's nets for its two hardcoded pairs. -/
theorem C7_multi_agrees (lines : Document) (s e : Nat)
    (pairs : List (Char × Char)) (he : e ≤ lines.length) :
    count_multiple_pairs lines s e pairs =
      pairs.mapM (fun p => count_pair lines s e p.1 p.2) ∧
      ∃ r₁ r₂, count_pair lines s e '(' ')' = .ok r₁ ∧
        count_pair lines s e '{' '}' = .ok r₂ ∧
        count_balance lines s e = .ok (r₁.net, r₂.net) := by
  constructor
  · unfold count_multiple_pairs
    rw [multiGo_ok lines _ _ (range'_valid lines s e he)]
    rw [mapM_ok_of_forall (fun p => count_pair lines s e p.1 p.2)
      (fun p => ⟨(countPure lines p.1 p.2 (List.range' s (e - s)) (0, 0)).1,
        (countPure lines p.1 p.2 (List.range' s (e - s)) (0, 0)).2⟩)
      pairs (fun p _ => count_pair_eq_pure lines s e p.1 p.2 he)]
    simp [Except.map, List.map_map, Function.comp]
  · obtain ⟨r₁, hr₁, hn₁, _, _⟩ := count_pair_ok lines s e '(' ')' he
    obtain ⟨r₂, hr₂, hn₂, _, _⟩ := count_pair_ok lines s e '{' '}' he
    refine ⟨r₁, r₂, hr₁, hr₂, ?_⟩
    unfold count_balance
    rw [netGo_ok lines '(' ')' _ 0 (range'_valid lines s e he),
      netGo_ok lines '{' '}' _ 0 (range'_valid lines s e he), hn₁, hn₂]
    norm_num

/-- Witness for C7 on a two-line document tracking both default pairs. -/
theorem C7_witness :
    (2 ≤ List.length [['(', '{'], ['}']]) ∧
      (count_multiple_pairs [['(', '{'], ['}']] 0 2 [('(', ')'), ('{', '}')] =
        [('(', ')'), ('{', '}')].mapM
          (fun p => count_pair [['(', '{'], ['}']] 0 2 p.1 p.2) ∧
        ∃ r₁ r₂, count_pair [['(', '{'], ['}']] 0 2 '(' ')' = .ok r₁ ∧
          count_pair [['(', '{'], ['}']] 0 2 '{' '}' = .ok r₂ ∧
          count_balance [['(', '{'], ['}']] 0 2 = .ok (r₁.net, r₂.net)) :=
  ⟨by decide,
    C7_multi_agrees [['(', '{'], ['}']] 0 2 [('(', ')'), ('{', '}')] (by decide)⟩
